import Mathlib

/-
Verification of the Lichess opening-book builder (build_opening_book.py).

The program is embedded shallowly over lists of characters: move tokens and
position keys are lists of characters, the builder's game database is an
insertion-ordered association list, and the tokenizer is a small backtracking
matcher for the two concrete patterns appearing in the source.
-/

set_option maxRecDepth 10000

/-- Characters of a string literal, used to write concrete inputs. -/
def chars (s : String) : List Char := s.data

/-- Whitespace characters stripped by str.strip. -/
def isPySpace (c : Char) : Bool :=
  c == ' ' || c == '\t' || c == '\n' || c == '\r' || c == '\x0b' || c == '\x0c'

/-- str.strip: drop whitespace from both ends. -/
def pyStrip (s : List Char) : List Char :=
  ((s.dropWhile isPySpace).reverse.dropWhile isPySpace).reverse

/-- str.split on a single character, keeping empty pieces. -/
def splitChar (c : Char) : List Char → List (List Char)
  | [] => [[]]
  | a :: rest =>
    let r := splitChar c rest
    if a == c then [] :: r
    else
      match r with
      | h :: t => (a :: h) :: t
      | [] => [[a]]

/-- str.startswith. -/
def listStartsWith : List Char → List Char → Bool
  | _, [] => true
  | [], _ :: _ => false
  | a :: s, b :: p => a == b && listStartsWith s p

/-- First occurrence of a separator inside a list: the part before and after. -/
def findSub (sep : List Char) : List Char → Option (List Char × List Char)
  | [] => if sep.isEmpty then some ([], []) else none
  | a :: rest =>
    if listStartsWith (a :: rest) sep then some ([], (a :: rest).drop sep.length)
    else
      match findSub sep rest with
      | some (pre, post) => some (a :: pre, post)
      | none => none

/-- str.split on a multi-character separator, fuelled by the input length. -/
def splitOnSubAux (sep : List Char) : Nat → List Char → List (List Char)
  | 0, s => [s]
  | fuel + 1, s =>
    match findSub sep s with
    | none => [s]
    | some (pre, post) => pre :: splitOnSubAux sep fuel post

/-- str.split on a multi-character separator. -/
def splitOnSub (sep : List Char) (s : List Char) : List (List Char) :=
  splitOnSubAux sep s.length s

/-- Tiny regular-expression shapes: exactly what the source's two patterns use. -/
inductive RE where
  | cls (p : Char → Bool)
  | seq (a b : RE)
  | opt (a : RE)
  | star (p : Char → Bool)
  | plus (p : Char → Bool)

/-- Suffixes reachable by consuming zero or more characters of a class,
longest consumption first (greedy order). -/
def runSuffixes (p : Char → Bool) : List Char → List (List Char)
  | [] => [[]]
  | c :: rest =>
    if p c then runSuffixes p rest ++ [c :: rest] else [c :: rest]

/-- All suffixes remaining after a match of the shape, in backtracking
priority order (greedy alternatives first). -/
def reMatches : RE → List Char → List (List Char)
  | .cls _, [] => []
  | .cls p, c :: rest => if p c then [rest] else []
  | .seq a b, s => (reMatches a s).flatMap (reMatches b)
  | .opt a, s => reMatches a s ++ [s]
  | .star p, s => runSuffixes p s
  | .plus p, _s =>
    match _s with
    | [] => []
    | c :: rest => if p c then runSuffixes p rest else []

/-- Decimal digit, for the move-number annotation. -/
def isDigitC (c : Char) : Bool := '0' ≤ c && c ≤ '9'

/-- Piece letters N B R Q K. -/
def isPieceC (c : Char) : Bool := c == 'N' || c == 'B' || c == 'R' || c == 'Q' || c == 'K'

/-- Board files a..h. -/
def isFileC (c : Char) : Bool := 'a' ≤ c && c ≤ 'h'

/-- Board ranks 1..8. -/
def isRankC (c : Char) : Bool := '1' ≤ c && c ≤ '8'

/-- Promotion pieces N B R Q. -/
def isPromoC (c : Char) : Bool := c == 'N' || c == 'B' || c == 'R' || c == 'Q'

/-- Check and checkmate markers. -/
def isCheckC (c : Char) : Bool := c == '+' || c == '#'

/-- The move-number group of the findall pattern: digits, a period, spaces. -/
def group1RE : RE :=
  .seq (.plus isDigitC) (.seq (.cls (fun c => c == '.')) (.star isPySpace))

/-- The anchored validation pattern of is_valid_move (no check markers). -/
def moveCoreRE : RE :=
  .seq (.opt (.cls isPieceC))
    (.seq (.opt (.cls isFileC))
      (.seq (.opt (.cls isRankC))
        (.seq (.opt (.cls (fun c => c == 'x')))
          (.seq (.cls isFileC)
            (.seq (.cls isRankC)
              (.opt (.seq (.cls (fun c => c == '=')) (.cls isPromoC))))))))

/-- The move-body capture group of the findall pattern. -/
def moveBodyRE : RE := .seq moveCoreRE (.opt (.cls isCheckC))

/-- Attempt the findall pattern at the start of the input; on success,
return the move-body capture and the remaining suffix. -/
def matchAt (s : List Char) : Option (List Char × List Char) :=
  ((reMatches (.opt group1RE) s).flatMap (fun s1 =>
    (reMatches moveBodyRE s1).map (fun s2 =>
      (s1.take (s1.length - s2.length), s2)))).head?

/-- re.findall scan, fuelled: try a match at each position, else advance. -/
def findMovesAux : Nat → List Char → List (List Char)
  | 0, _ => []
  | _, [] => []
  | fuel + 1, s =>
    match matchAt s with
    | some (g, rest) => g :: findMovesAux fuel rest
    | none =>
      match s with
      | [] => []
      | _ :: t => findMovesAux fuel t

/-- All move-body captures of the findall pattern, left to right. -/
def findMoves (s : List Char) : List (List Char) := findMovesAux s.length s

/-- move.replace of the check and checkmate markers by nothing. -/
def stripCheck (m : List Char) : List Char := m.filter (fun c => !isCheckC c)

/-- is_valid_move: anchored match of the canonical SAN-like pattern. -/
def is_valid_move (m : List Char) : Bool :=
  (reMatches moveCoreRE m).any (fun r => r.isEmpty)

/-- The line test in extract_moves_from_game's reversed scan. -/
def move_line_ok (l : List Char) : Bool :=
  !l.isEmpty && !listStartsWith l (chars "[") && !listStartsWith l (chars "1-0")
    && !listStartsWith l (chars "0-1") && !listStartsWith l (chars "1/2-1/2")

/-- The reversed scan of extract_moves_from_game: strip each candidate line,
return the first stripped line passing the test, defaulting to empty. -/
def findMoveText : List (List Char) → List Char
  | [] => []
  | l :: rest =>
    let l' := pyStrip l
    if move_line_ok l' then l' else findMoveText rest

/-- The move-text line chosen by extract_moves_from_game. -/
def moveTextOf (game_text : List Char) : List Char :=
  findMoveText (splitChar '\n' (pyStrip game_text)).reverse

/-- extract_moves_from_game: select the move-text line, tokenize it, strip
check markers, and keep only tokens that are long enough and valid. -/
def extract_moves_from_game (game_text : List Char) : List (List Char) :=
  (findMoves (moveTextOf game_text)).filterMap (fun raw =>
    let move := stripCheck raw
    if 2 ≤ move.length && is_valid_move move then some move else none)

/-- One value of the game database: the continuation moves, their
index-aligned frequencies, and the total occurrence count of the key. -/
structure Entry where
  moves : List (List Char)
  frequencies : List Nat
  total_games : Nat
deriving DecidableEq

/-- The defaultdict default: empty lists and a zero count. -/
def defaultEntry : Entry := { moves := [], frequencies := [], total_games := 0 }

/-- The game database: an insertion-ordered map from position key to entry. -/
abbrev GameDB := List (List Char × Entry)

/-- Lookup of a key in the database. -/
def lookupKey (db : GameDB) (k : List Char) : Option Entry :=
  (db.find? (fun ke => ke.1 == k)).map (fun ke => ke.2)

/-- list.index restricted to first occurrence, as an option. -/
def firstIdx (nm : List Char) : List (List Char) → Option Nat
  | [] => none
  | t :: ts => if t == nm then some 0 else (firstIdx nm ts).map (fun i => i + 1)

/-- Increment a key's total_games. -/
def bumpTotal (e : Entry) : Entry := { e with total_games := e.total_games + 1 }

/-- Record one observation of a continuation move: bump its frequency if
present, else append it with frequency 1. -/
def addContinuation (nm : List Char) (e : Entry) : Entry :=
  match firstIdx nm e.moves with
  | some idx => { e with frequencies := e.frequencies.set idx (e.frequencies.getD idx 0 + 1) }
  | none => { e with moves := e.moves ++ [nm], frequencies := e.frequencies ++ [1] }

/-- defaultdict update: modify the entry at a key in place, creating it from
the default (at the end, in insertion order) when absent. -/
def updateKey (db : GameDB) (k : List Char) (f : Entry → Entry) : GameDB :=
  match db with
  | [] => [(k, f defaultEntry)]
  | ke :: rest => if ke.1 == k then (ke.1, f ke.2) :: rest else ke :: updateKey rest k f

/-- Space-separated join of the move history, as the str.join call. -/
def joinSpace : List (List Char) → List Char
  | [] => []
  | [t] => t
  | t :: ts => t ++ ' ' :: joinSpace ts

/-- The body of process_game's loop at ply index i: bump the prefix key's
total, and record the continuation when a move exists at index i+1. -/
def processStep (moves : List (List Char)) (db : GameDB) (i : Nat) : GameDB :=
  let position_key := joinSpace (moves.take (i + 1))
  let db1 := updateKey db position_key bumpTotal
  if i + 1 < moves.length then
    updateKey db1 position_key (addContinuation (moves.getD (i + 1) []))
  else db1

/-- process_game: ignore games shorter than 4 moves, else fold the loop body
over ply indices 0 .. min(len(moves), max_depth) - 1. -/
def process_game (max_depth : Nat) (db : GameDB) (moves : List (List Char)) : GameDB :=
  if moves.length < 4 then db
  else (List.range (min moves.length max_depth)).foldl (processStep moves) db

/-- Descending-index removal: fold list.pop over the collected indices. -/
def removeIdxs (l : List α) (idxs : List Nat) : List α :=
  idxs.foldl (fun acc i => acc.eraseIdx i) l

/-- The continuation-pruning part of filter_weak_moves for one entry:
collect the indices whose frequency is below the threshold and remove them
from both lists in reverse order. -/
def pruneEntry (e : Entry) : Entry :=
  let min_frequency := max 1 (e.total_games * 15 / 100)
  let moves_to_remove :=
    (List.range e.moves.length).filter (fun i => decide (e.frequencies.getD i 0 < min_frequency))
  { e with moves := removeIdxs e.moves moves_to_remove.reverse,
           frequencies := removeIdxs e.frequencies moves_to_remove.reverse }

/-- filter_weak_moves: drop keys below the position threshold, prune weak
continuations of the surviving keys, then drop keys left with no moves. -/
def filter_weak_moves (min_games : Nat) (db : GameDB) : GameDB :=
  db.filterMap (fun ke =>
    if ke.2.total_games < min_games then none
    else
      let e' := pruneEntry ke.2
      if e'.moves.isEmpty then none else some (ke.1, e'))

/-- The two output line collections. -/
structure Book where
  white : List (List Char)
  black : List (List Char)
deriving DecidableEq

/-- generate_opening_book: for each key, classify by parity of its token
count and append every continuation line to the selected bucket. -/
def generate_opening_book (db : GameDB) : Book :=
  db.foldl (fun book ke =>
    let moves := splitChar ' ' ke.1
    let is_white := moves.length % 2 == 0
    ke.2.moves.foldl (fun bk mv =>
      let opening_line := ke.1 ++ ' ' :: mv
      if is_white then { bk with white := bk.white ++ [opening_line] }
      else { bk with black := bk.black ++ [opening_line] }) book)
    { white := [], black := [] }

/-- The builder object: configuration and the persistent game database. -/
structure LichessOpeningBookBuilder where
  game_database : GameDB
  min_games : Nat
  max_depth : Nat
  max_games : Nat
  processed_games : Nat
deriving DecidableEq

/-- The constructor's initial state. -/
def initial_builder : LichessOpeningBookBuilder :=
  { game_database := [], min_games := 3, max_depth := 15, max_games := 50000,
    processed_games := 0 }

/-- The body of process_pgn_file's loop over enumerated records: restore the
record delimiter on every record but the first, extract the game's moves, and
when some were found aggregate them and count the game as processed. -/
def record_step (acc : LichessOpeningBookBuilder) (ig : Nat × List Char) :
    LichessOpeningBookBuilder :=
  let game := if ig.1 > 0 then chars "[Event" ++ ig.2 else ig.2
  let moves := extract_moves_from_game game
  if moves.isEmpty then acc
  else { acc with game_database := process_game acc.max_depth acc.game_database moves,
                  processed_games := acc.processed_games + 1 }

/-- process_pgn_file: split the corpus on the record delimiter, fold the
per-record step over the capped record list, then filter the database and
generate the book. The database and the processed-games counter persist on
the builder. -/
def process_pgn_file (b : LichessOpeningBookBuilder) (content : List Char) :
    LichessOpeningBookBuilder × Book :=
  let games := (splitOnSub (chars "\n\n[Event") content).take b.max_games
  let b1 := games.enum.foldl record_step b
  let b2 := { b1 with game_database := filter_weak_moves b1.min_games b1.game_database }
  (b2, generate_opening_book b2.game_database)

/-- The book merge in main: list(set(..)) per bucket, modelled as
deduplication of the concatenation. -/
def merge_books (a b : Book) : Book :=
  { white := (a.white ++ b.white).dedup, black := (a.black ++ b.black).dedup }

/-- main, given the contents of the two corpus files: one builder processes
both files in sequence, and the two books are merged. Returns the per-file
books and the merged book. -/
def main_books (content2014 content2016 : List Char) : Book × Book × Book :=
  let builder := { initial_builder with max_games := 100000 }
  let r2014 := process_pgn_file builder content2014
  let r2016 := process_pgn_file r2014.1 content2016
  (r2014.2, r2016.2, merge_books r2014.2 r2016.2)

/-- total_games recorded for a key, zero when absent. -/
def keyTotal (db : GameDB) (k : List Char) : Nat :=
  match lookupKey db k with
  | some e => e.total_games
  | none => 0

/-- Frequency recorded in an entry for a continuation move, zero when absent. -/
def entryCount (e : Entry) (m : List Char) : Nat :=
  match firstIdx m e.moves with
  | some i => e.frequencies.getD i 0
  | none => 0

/-- Frequency recorded for a (key, continuation) pair, zero when absent. -/
def contCount (db : GameDB) (k m : List Char) : Nat :=
  match lookupKey db k with
  | some e => entryCount e m
  | none => 0

/-- The data-model invariant of one entry: the continuation list and the
frequency list are index-aligned. -/
def entryAligned (e : Entry) : Bool := e.moves.length == e.frequencies.length

/-- The data-model invariant of the database. -/
def dbAligned (db : GameDB) : Bool := db.all (fun ke => entryAligned ke.2)

/-- Number of times one game bumps total_games of a given key: the in-range
ply indices whose prefix key is that key. -/
def gameKeyInc (d : Nat) (g : List (List Char)) (k : List Char) : Nat :=
  if g.length < 4 then 0
  else ((List.range (min g.length d)).filter
    (fun i => decide (k = joinSpace (g.take (i + 1))))).length

/-- Number of times one game records a given continuation at a given key. -/
def gameContInc (d : Nat) (g : List (List Char)) (k m : List Char) : Nat :=
  if g.length < 4 then 0
  else ((List.range (min g.length d)).filter
    (fun i => decide (k = joinSpace (g.take (i + 1)) ∧ i + 1 < g.length
      ∧ m = g.getD (i + 1) []))).length

/-- All opening lines of the keys with an even token count, in database
order: the lines generate_opening_book routes to the white bucket. -/
def whiteLines (db : GameDB) : List (List Char) :=
  (db.filter (fun ke => (splitChar ' ' ke.1).length % 2 == 0)).flatMap
    (fun ke => ke.2.moves.map (fun mv => ke.1 ++ ' ' :: mv))

/-- All opening lines of the keys with an odd token count, in database
order: the lines generate_opening_book routes to the black bucket. -/
def blackLines (db : GameDB) : List (List Char) :=
  (db.filter (fun ke => (splitChar ' ' ke.1).length % 2 == 1)).flatMap
    (fun ke => ke.2.moves.map (fun mv => ke.1 ++ ' ' :: mv))

/-- The spec's wording of the move-text line test: a bare result marker is
excluded by equality, not by a startswith test. -/
def move_line_ok_spec (l : List Char) : Bool :=
  !l.isEmpty && !listStartsWith l (chars "[") && !(l == chars "1-0")
    && !(l == chars "0-1") && !(l == chars "1/2-1/2")

/-- The spec's wording of the reversed line scan. -/
def findMoveTextSpec : List (List Char) → List Char
  | [] => []
  | l :: rest =>
    let l' := pyStrip l
    if move_line_ok_spec l' then l' else findMoveTextSpec rest

/-! ### Helper lemmas: list indexing -/

theorem getD_set_self (l : List Nat) (i v : Nat) (h : i < l.length) :
    (l.set i v).getD i 0 = v := by
  induction l generalizing i with
  | nil => simp at h
  | cons a t ih =>
    cases i with
    | zero => rfl
    | succ j => exact ih j (Nat.lt_of_succ_lt_succ h)

theorem getD_set_ne (l : List Nat) (i j v : Nat) (h : i ≠ j) :
    (l.set i v).getD j 0 = l.getD j 0 := by
  induction l generalizing i j with
  | nil => simp [List.set]
  | cons a t ih =>
    cases i with
    | zero =>
      cases j with
      | zero => exact absurd rfl h
      | succ j' => rfl
    | succ i' =>
      cases j with
      | zero => rfl
      | succ j' => exact ih i' j' (fun hc => h (by rw [hc]))

/-! ### Helper lemmas: firstIdx -/

theorem firstIdx_some (nm : List Char) (l : List (List Char)) (i : Nat)
    (h : firstIdx nm l = some i) : i < l.length ∧ l.getD i [] = nm := by
  induction l generalizing i with
  | nil => simp [firstIdx] at h
  | cons a t ih =>
    by_cases ha : a = nm
    · simp [firstIdx, ha] at h
      subst h
      exact ⟨Nat.succ_pos _, by simp [ha]⟩
    · simp [firstIdx, ha] at h
      obtain ⟨j, hj, rfl⟩ := h
      obtain ⟨h1, h2⟩ := ih j hj
      exact ⟨Nat.succ_lt_succ h1, h2⟩

theorem firstIdx_append_self (nm : List Char) (l : List (List Char))
    (h : firstIdx nm l = none) : firstIdx nm (l ++ [nm]) = some l.length := by
  induction l with
  | nil => simp [firstIdx]
  | cons a t ih =>
    by_cases ha : a = nm
    · simp [firstIdx, ha] at h
    · simp [firstIdx, ha] at h ⊢
      simp [ih h]

theorem firstIdx_append_ne (m nm : List Char) (l : List (List Char)) (h : m ≠ nm) :
    firstIdx m (l ++ [nm]) = firstIdx m l := by
  induction l with
  | nil =>
    have h' : (nm == m) = false := beq_eq_false_iff_ne.mpr (Ne.symm h)
    simp [firstIdx, h']
  | cons a t ih =>
    by_cases ha : a = m
    · simp [firstIdx, ha]
    · simp [firstIdx, ha, ih]

/-! ### Helper lemmas: entry operations -/

theorem addContinuation_total (nm : List Char) (e : Entry) :
    (addContinuation nm e).total_games = e.total_games := by
  unfold addContinuation
  cases firstIdx nm e.moves <;> rfl

theorem bumpTotal_moves (e : Entry) : (bumpTotal e).moves = e.moves := rfl

theorem entryAligned_iff (e : Entry) :
    entryAligned e = true ↔ e.moves.length = e.frequencies.length := by
  simp [entryAligned]

theorem addContinuation_aligned (nm : List Char) (e : Entry)
    (h : entryAligned e = true) : entryAligned (addContinuation nm e) = true := by
  rw [entryAligned_iff] at h ⊢
  unfold addContinuation
  cases hf : firstIdx nm e.moves with
  | some i => simpa using h
  | none => simp [h]

theorem bumpTotal_aligned (e : Entry) (h : entryAligned e = true) :
    entryAligned (bumpTotal e) = true := h

theorem defaultEntry_aligned : entryAligned defaultEntry = true := rfl

theorem entryCount_bumpTotal (e : Entry) (m : List Char) :
    entryCount (bumpTotal e) m = entryCount e m := rfl

theorem entryCount_default (m : List Char) : entryCount defaultEntry m = 0 := by
  simp [entryCount, defaultEntry, firstIdx]

theorem entryCount_addContinuation (nm : List Char) (e : Entry) (m : List Char)
    (h : entryAligned e = true) :
    entryCount (addContinuation nm e) m = entryCount e m + (if m = nm then 1 else 0) := by
  rw [entryAligned_iff] at h
  unfold addContinuation entryCount
  cases hf : firstIdx nm e.moves with
  | some i =>
    obtain ⟨hi, hgi⟩ := firstIdx_some nm e.moves i hf
    by_cases hm : m = nm
    · subst hm
      simp only [hf]
      rw [getD_set_self _ _ _ (h ▸ hi)]
      simp
    · cases hg : firstIdx m e.moves with
      | some j =>
        obtain ⟨hj, hgj⟩ := firstIdx_some m e.moves j hg
        have hij : i ≠ j := fun hc => hm (by rw [← hgj, ← hc, hgi])
        simp only [hg, if_neg hm]
        rw [getD_set_ne _ _ _ _ hij]
        simp
      | none => simp [hg, hm]
  | none =>
    by_cases hm : m = nm
    · subst hm
      rw [firstIdx_append_self m e.moves hf]
      simp only [hf]
      rw [List.getD_append_right _ _ _ _ (Nat.le_of_eq h.symm), h]
      simp
    · rw [firstIdx_append_ne m nm e.moves hm]
      cases hg : firstIdx m e.moves with
      | some j =>
        obtain ⟨hj, hgj⟩ := firstIdx_some m e.moves j hg
        simp only []
        rw [List.getD_append _ _ _ _ (h ▸ hj)]
        simp [hm]
      | none => simp [hm]

/-! ### Helper lemmas: lookup and update -/

theorem lookupKey_nil (k : List Char) : lookupKey [] k = none := rfl

theorem lookupKey_cons (ke : List Char × Entry) (rest : GameDB) (k' : List Char) :
    lookupKey (ke :: rest) k' = if ke.1 = k' then some ke.2 else lookupKey rest k' := by
  by_cases h : ke.1 = k'
  · have hb : (ke.1 == k') = true := beq_iff_eq.mpr h
    simp [lookupKey, List.find?, hb, h]
  · have hb : (ke.1 == k') = false := beq_eq_false_iff_ne.mpr h
    simp [lookupKey, List.find?, hb, h]

theorem updateKey_cons_hit (ke : List Char × Entry) (rest : GameDB) (k : List Char)
    (f : Entry → Entry) (h : ke.1 = k) :
    updateKey (ke :: rest) k f = (ke.1, f ke.2) :: rest := by
  have hb : (ke.1 == k) = true := beq_iff_eq.mpr h
  simp [updateKey, hb]

theorem updateKey_cons_miss (ke : List Char × Entry) (rest : GameDB) (k : List Char)
    (f : Entry → Entry) (h : ¬ ke.1 = k) :
    updateKey (ke :: rest) k f = ke :: updateKey rest k f := by
  have hb : (ke.1 == k) = false := beq_eq_false_iff_ne.mpr h
  simp [updateKey, hb]

theorem lookupKey_updateKey (db : GameDB) (k : List Char) (f : Entry → Entry)
    (k' : List Char) :
    lookupKey (updateKey db k f) k'
      = if k' = k then some (f ((lookupKey db k).getD defaultEntry))
        else lookupKey db k' := by
  induction db with
  | nil =>
    show lookupKey [(k, f defaultEntry)] k' = _
    rw [lookupKey_cons]
    by_cases h : k' = k
    · subst h
      simp [lookupKey_nil]
    · have h' : ¬ k = k' := fun hc => h hc.symm
      simp [lookupKey_nil, h, h']
  | cons ke rest ih =>
    by_cases h0 : ke.1 = k
    · rw [updateKey_cons_hit ke rest k f h0, lookupKey_cons, lookupKey_cons]
      by_cases h1 : k' = k
      · have h2 : ke.1 = k' := h1 ▸ h0
        rw [lookupKey_cons]
        simp [h0, h1, h2]
      · have h2 : ¬ ke.1 = k' := fun hc => h1 (hc ▸ h0)
        simp only [h1, if_false, h2]
        rw [lookupKey_cons]
        simp [h2]
    · rw [updateKey_cons_miss ke rest k f h0, lookupKey_cons]
      by_cases h1 : ke.1 = k'
      · have h2 : ¬ k' = k := fun hc => h0 (hc ▸ h1)
        simp only [h1, if_true, h2, if_false]
        rw [lookupKey_cons]
        simp [h1]
      · rw [lookupKey_cons]
        simp only [h1, if_false]
        rw [ih]
        by_cases h2 : k' = k
        · rw [lookupKey_cons]
          simp [h0, h2]
        · simp only [h2, if_false]
          rw [lookupKey_cons]
          simp [h1]

/-! ### Helper lemmas: counters under single updates -/

theorem keyTotal_updateKey_bump (db : GameDB) (k k' : List Char) :
    keyTotal (updateKey db k bumpTotal) k'
      = keyTotal db k' + (if k' = k then 1 else 0) := by
  unfold keyTotal
  rw [lookupKey_updateKey]
  by_cases h : k' = k
  · subst h
    cases hl : lookupKey db k' <;> simp [hl, bumpTotal, defaultEntry]
  · simp [h]

theorem keyTotal_updateKey_addCont (db : GameDB) (k nm k' : List Char) :
    keyTotal (updateKey db k (addContinuation nm)) k' = keyTotal db k' := by
  unfold keyTotal
  rw [lookupKey_updateKey]
  by_cases h : k' = k
  · subst h
    cases hl : lookupKey db k' <;>
      simp [hl, addContinuation_total, defaultEntry,
        show (addContinuation nm defaultEntry).total_games = 0 from
          addContinuation_total nm defaultEntry]
  · simp [h]

theorem contCount_updateKey_bump (db : GameDB) (k k' m : List Char) :
    contCount (updateKey db k bumpTotal) k' m = contCount db k' m := by
  unfold contCount
  rw [lookupKey_updateKey]
  by_cases h : k' = k
  · subst h
    cases hl : lookupKey db k' <;>
      simp [hl, entryCount_bumpTotal, entryCount_default]
  · simp [h]

theorem aligned_of_lookup (db : GameDB) (k : List Char) (e : Entry)
    (hdb : dbAligned db = true) (h : lookupKey db k = some e) :
    entryAligned e = true := by
  unfold lookupKey at h
  cases hf : db.find? (fun ke => ke.1 == k) with
  | none => rw [hf] at h; simp at h
  | some ke =>
    rw [hf] at h
    simp only [Option.map_some'] at h
    have hm := List.mem_of_find?_eq_some hf
    have ha := (List.all_eq_true.mp hdb) ke hm
    have he : ke.2 = e := by injection h
    rw [← he]
    exact ha

theorem contCount_updateKey_addCont (db : GameDB) (k nm k' m : List Char)
    (hdb : dbAligned db = true) :
    contCount (updateKey db k (addContinuation nm)) k' m
      = contCount db k' m + (if k' = k ∧ m = nm then 1 else 0) := by
  unfold contCount
  rw [lookupKey_updateKey]
  by_cases h : k' = k
  · subst h
    cases hl : lookupKey db k' with
    | some e =>
      have ha := aligned_of_lookup db k' e hdb hl
      simp only [hl, if_true, Option.getD_some]
      rw [entryCount_addContinuation nm e m ha]
      by_cases hm : m = nm <;> simp [hm]
    | none =>
      simp only [hl, if_true, Option.getD_none]
      rw [entryCount_addContinuation nm defaultEntry m defaultEntry_aligned]
      by_cases hm : m = nm <;> simp [hm, entryCount_default]
  · have h2 : ¬(k' = k ∧ m = nm) := fun hc => h hc.1
    simp [h, h2]

/-! ### Helper lemmas: alignment preservation -/

theorem dbAligned_nil : dbAligned [] = true := rfl

theorem dbAligned_cons (ke : List Char × Entry) (rest : GameDB) :
    dbAligned (ke :: rest) = (entryAligned ke.2 && dbAligned rest) := by
  simp [dbAligned]

theorem dbAligned_updateKey (db : GameDB) (k : List Char) (f : Entry → Entry)
    (hf : ∀ e, entryAligned e = true → entryAligned (f e) = true)
    (hdb : dbAligned db = true) : dbAligned (updateKey db k f) = true := by
  induction db with
  | nil =>
    show dbAligned [(k, f defaultEntry)] = true
    rw [dbAligned_cons]
    simp [hf defaultEntry defaultEntry_aligned, dbAligned_nil]
  | cons ke rest ih =>
    rw [dbAligned_cons, Bool.and_eq_true] at hdb
    obtain ⟨h1, h2⟩ := hdb
    by_cases h : ke.1 = k
    · rw [updateKey_cons_hit _ _ _ _ h, dbAligned_cons]
      simp [hf ke.2 h1, h2]
    · rw [updateKey_cons_miss _ _ _ _ h, dbAligned_cons]
      simp [h1, ih h2]

theorem dbAligned_processStep (g : List (List Char)) (db : GameDB) (i : Nat)
    (hdb : dbAligned db = true) : dbAligned (processStep g db i) = true := by
  unfold processStep
  by_cases h : i + 1 < g.length
  · simp only [if_pos h]
    exact dbAligned_updateKey _ _ _ (fun e he => addContinuation_aligned _ e he)
      (dbAligned_updateKey _ _ _ (fun e he => bumpTotal_aligned e he) hdb)
  · simp only [if_neg h]
    exact dbAligned_updateKey _ _ _ (fun e he => bumpTotal_aligned e he) hdb

theorem dbAligned_foldSteps (g : List (List Char)) (is : List Nat) (db : GameDB)
    (hdb : dbAligned db = true) :
    dbAligned (is.foldl (processStep g) db) = true := by
  induction is generalizing db with
  | nil => exact hdb
  | cons i t ih => exact ih _ (dbAligned_processStep g db i hdb)

theorem dbAligned_process_game (d : Nat) (db : GameDB) (g : List (List Char))
    (hdb : dbAligned db = true) : dbAligned (process_game d db g) = true := by
  unfold process_game
  by_cases h : g.length < 4
  · simp [h, hdb]
  · simp only [if_neg h]
    exact dbAligned_foldSteps g _ db hdb

/-! ### Helper lemmas: counters under one ply step and their folds -/

theorem keyTotal_processStep (g : List (List Char)) (db : GameDB) (i : Nat)
    (k : List Char) :
    keyTotal (processStep g db i) k
      = keyTotal db k + (if k = joinSpace (g.take (i + 1)) then 1 else 0) := by
  unfold processStep
  by_cases h : i + 1 < g.length
  · simp only [if_pos h]
    rw [keyTotal_updateKey_addCont, keyTotal_updateKey_bump]
  · simp only [if_neg h]
    rw [keyTotal_updateKey_bump]

theorem contCount_processStep (g : List (List Char)) (db : GameDB) (i : Nat)
    (k m : List Char) (hdb : dbAligned db = true) :
    contCount (processStep g db i) k m
      = contCount db k m
        + (if k = joinSpace (g.take (i + 1)) ∧ i + 1 < g.length
             ∧ m = g.getD (i + 1) [] then 1 else 0) := by
  unfold processStep
  by_cases h : i + 1 < g.length
  · simp only [if_pos h]
    rw [contCount_updateKey_addCont _ _ _ _ _
      (dbAligned_updateKey _ _ _ (fun e he => bumpTotal_aligned e he) hdb)]
    rw [contCount_updateKey_bump]
    by_cases h1 : k = joinSpace (g.take (i + 1)) <;>
      by_cases h2 : m = g.getD (i + 1) [] <;> simp [h1, h2, h]
  · simp only [if_neg h]
    rw [contCount_updateKey_bump]
    simp [h]

theorem keyTotal_foldSteps (g : List (List Char)) (is : List Nat) (db : GameDB)
    (k : List Char) :
    keyTotal (is.foldl (processStep g) db) k
      = keyTotal db k
        + (is.filter (fun i => decide (k = joinSpace (g.take (i + 1))))).length := by
  induction is generalizing db with
  | nil => simp
  | cons i t ih =>
    rw [List.foldl_cons, ih, keyTotal_processStep]
    by_cases h : k = joinSpace (g.take (i + 1)) <;> simp [h] <;> omega

theorem contCount_foldSteps (g : List (List Char)) (is : List Nat) (db : GameDB)
    (k m : List Char) (hdb : dbAligned db = true) :
    contCount (is.foldl (processStep g) db) k m
      = contCount db k m
        + (is.filter (fun i => decide (k = joinSpace (g.take (i + 1)) ∧ i + 1 < g.length
            ∧ m = g.getD (i + 1) []))).length := by
  induction is generalizing db with
  | nil => simp
  | cons i t ih =>
    rw [List.foldl_cons, ih _ (dbAligned_processStep g db i hdb),
      contCount_processStep g db i k m hdb]
    simp only [List.filter_cons]
    by_cases h : k = joinSpace (g.take (i + 1)) ∧ i + 1 < g.length
        ∧ m = g.getD (i + 1) []
    · rw [if_pos (decide_eq_true h), if_pos h]
      simp only [List.length_cons]
      omega
    · have hb : decide (k = joinSpace (g.take (i + 1)) ∧ i + 1 < g.length
          ∧ m = g.getD (i + 1) []) = false := decide_eq_false h
      rw [if_neg h]
      simp only [hb, Bool.false_eq_true, if_false]
      omega

/-! ### Helper lemmas: counters under one whole game and game folds -/

theorem keyTotal_process_game (d : Nat) (db : GameDB) (g : List (List Char))
    (k : List Char) :
    keyTotal (process_game d db g) k = keyTotal db k + gameKeyInc d g k := by
  unfold process_game gameKeyInc
  by_cases h : g.length < 4
  · simp [h]
  · simp only [if_neg h]
    rw [keyTotal_foldSteps]

theorem contCount_process_game (d : Nat) (db : GameDB) (g : List (List Char))
    (k m : List Char) (hdb : dbAligned db = true) :
    contCount (process_game d db g) k m = contCount db k m + gameContInc d g k m := by
  unfold process_game gameContInc
  by_cases h : g.length < 4
  · simp [h]
  · simp only [if_neg h]
    rw [contCount_foldSteps g _ db k m hdb]

theorem keyTotal_fold_games (d : Nat) (gs : List (List (List Char))) (db : GameDB)
    (k : List Char) :
    keyTotal (gs.foldl (process_game d) db) k
      = keyTotal db k + (gs.map (fun g => gameKeyInc d g k)).sum := by
  induction gs generalizing db with
  | nil => simp
  | cons g t ih =>
    rw [List.foldl_cons, ih, keyTotal_process_game]
    simp [Nat.add_assoc]

theorem contCount_fold_games (d : Nat) (gs : List (List (List Char))) (db : GameDB)
    (k m : List Char) (hdb : dbAligned db = true) :
    contCount (gs.foldl (process_game d) db) k m
      = contCount db k m + (gs.map (fun g => gameContInc d g k m)).sum := by
  induction gs generalizing db with
  | nil => simp
  | cons g t ih =>
    rw [List.foldl_cons, ih _ (dbAligned_process_game d db g hdb),
      contCount_process_game d db g k m hdb]
    simp [Nat.add_assoc]

/-! ### Helper lemmas: descending-index removal -/

theorem removeIdxs_nil_idxs (l : List α) : removeIdxs l [] = l := rfl

theorem removeIdxs_map_succ (a : α) (l : List α) (idxs : List Nat) :
    removeIdxs (a :: l) (idxs.map (fun i => i + 1)) = a :: removeIdxs l idxs := by
  induction idxs generalizing l with
  | nil => rfl
  | cons i t ih =>
    show removeIdxs ((a :: l).eraseIdx (i + 1)) (t.map (fun i => i + 1))
      = a :: removeIdxs (l.eraseIdx i) t
    exact ih (l.eraseIdx i)

theorem removeIdxs_append (l : List α) (idxs1 idxs2 : List Nat) :
    removeIdxs l (idxs1 ++ idxs2) = removeIdxs (removeIdxs l idxs1) idxs2 := by
  unfold removeIdxs
  rw [List.foldl_append]

theorem removeIdxs_zero (x : α) (l : List α) : removeIdxs (x :: l) [0] = l := rfl

theorem removeIdxs_pair (t : Nat) (m : List (List Char)) :
    ∀ (f : List Nat), m.length = f.length →
    removeIdxs m (((List.range m.length).filter
        (fun i => decide (f.getD i 0 < t))).reverse)
      = ((m.zip f).filter (fun p => decide (t ≤ p.2))).map Prod.fst
    ∧ removeIdxs f (((List.range m.length).filter
        (fun i => decide (f.getD i 0 < t))).reverse)
      = ((m.zip f).filter (fun p => decide (t ≤ p.2))).map Prod.snd := by
  induction m with
  | nil =>
    intro f hf
    have hf0 : f = [] := List.length_eq_zero.mp hf.symm
    subst hf0
    exact ⟨rfl, rfl⟩
  | cons a m' ih =>
    intro f hf
    cases f with
    | nil => simp at hf
    | cons b f' =>
      have hf' : m'.length = f'.length := by simpa using hf
      obtain ⟨ih1, ih2⟩ := ih f' hf'
      have hrange : (List.range (a :: m').length).filter
            (fun i => decide ((b :: f').getD i 0 < t))
          = (if decide (b < t) then [0] else [])
            ++ ((List.range m'.length).filter
                (fun i => decide (f'.getD i 0 < t))).map (fun i => i + 1) := by
        rw [List.length_cons, List.range_succ_eq_map, List.filter_cons]
        have hmap : (List.map Nat.succ (List.range m'.length)).filter
              (fun i => decide ((b :: f').getD i 0 < t))
            = ((List.range m'.length).filter
                (fun i => decide (f'.getD i 0 < t))).map (fun i => i + 1) := by
          rw [List.filter_map]
          have : ((fun i => decide ((b :: f').getD i 0 < t)) ∘ Nat.succ)
              = (fun i => decide (f'.getD i 0 < t)) := by
            funext i
            simp [Function.comp, List.getD_cons_succ, Nat.succ_eq_add_one]
          rw [this]
        by_cases hb : b < t
        · simp only [List.getD_cons_zero, decide_eq_true hb, if_true, hmap]
          try rfl
        · simp only [List.getD_cons_zero, decide_eq_false hb, Bool.false_eq_true, if_false, hmap]
          try rfl
      rw [hrange]
      by_cases hb : b < t
      · have hble : decide (t ≤ b) = false := decide_eq_false (by omega)
        simp only [decide_eq_true hb, if_true, List.reverse_append, List.reverse_map,
          List.reverse_cons, List.reverse_nil, List.nil_append]
        constructor
        · rw [removeIdxs_append, removeIdxs_map_succ, removeIdxs_zero,
            List.zip_cons_cons, List.filter_cons, hble]
          simp only [Bool.false_eq_true, if_false]
          exact ih1
        · rw [removeIdxs_append, removeIdxs_map_succ, removeIdxs_zero,
            List.zip_cons_cons, List.filter_cons, hble]
          simp only [Bool.false_eq_true, if_false]
          exact ih2
      · have hble : decide (t ≤ b) = true := decide_eq_true (by omega)
        simp only [decide_eq_false hb, Bool.false_eq_true, if_false, List.nil_append,
          List.reverse_map]
        constructor
        · rw [removeIdxs_map_succ, List.zip_cons_cons, List.filter_cons, hble]
          simp only [if_true, List.map_cons]
          rw [ih1]
        · rw [removeIdxs_map_succ, List.zip_cons_cons, List.filter_cons, hble]
          simp only [if_true, List.map_cons]
          rw [ih2]

theorem pruneEntry_spec (e : Entry) (ha : entryAligned e = true) :
    (pruneEntry e).moves
        = ((e.moves.zip e.frequencies).filter
            (fun p => decide (max 1 (e.total_games * 15 / 100) ≤ p.2))).map Prod.fst
      ∧ (pruneEntry e).frequencies
        = ((e.moves.zip e.frequencies).filter
            (fun p => decide (max 1 (e.total_games * 15 / 100) ≤ p.2))).map Prod.snd
      ∧ (pruneEntry e).total_games = e.total_games := by
  rw [entryAligned_iff] at ha
  obtain ⟨h1, h2⟩ := removeIdxs_pair (max 1 (e.total_games * 15 / 100)) e.moves e.frequencies ha
  exact ⟨h1, h2, rfl⟩

/-! ### Helper lemmas: the weak-signal filter -/

theorem filter_weak_moves_mem (min_games : Nat) (db : GameDB) (k : List Char)
    (e' : Entry) (h : (k, e') ∈ filter_weak_moves min_games db) :
    ∃ e, (k, e) ∈ db ∧ min_games ≤ e.total_games ∧ e' = pruneEntry e
      ∧ ¬((pruneEntry e).moves.isEmpty = true) := by
  unfold filter_weak_moves at h
  rw [List.mem_filterMap] at h
  obtain ⟨ke, hmem, hsome⟩ := h
  by_cases h1 : ke.2.total_games < min_games
  · rw [if_pos h1] at hsome
    exact absurd hsome (by simp)
  · rw [if_neg h1] at hsome
    simp only [] at hsome
    by_cases h2 : (pruneEntry ke.2).moves.isEmpty = true
    · rw [if_pos h2] at hsome
      exact absurd hsome (by simp)
    · rw [if_neg h2] at hsome
      have hk : ke.1 = k := congrArg Prod.fst (Option.some.inj hsome)
      have he : pruneEntry ke.2 = e' := congrArg Prod.snd (Option.some.inj hsome)
      refine ⟨ke.2, ?_, by omega, he.symm, h2⟩
      rw [← hk]
      exact hmem

theorem pruneEntry_aligned (e : Entry) (ha : entryAligned e = true) :
    entryAligned (pruneEntry e) = true := by
  obtain ⟨h1, h2, _⟩ := pruneEntry_spec e ha
  rw [entryAligned_iff, h1, h2]
  simp

theorem pruneEntry_freq_ge (e : Entry) (ha : entryAligned e = true)
    (f : Nat) (hf : f ∈ (pruneEntry e).frequencies) :
    max 1 (e.total_games * 15 / 100) ≤ f := by
  obtain ⟨_, h2, _⟩ := pruneEntry_spec e ha
  rw [h2] at hf
  rw [List.mem_map] at hf
  obtain ⟨p, hp, hpf⟩ := hf
  rw [List.mem_filter] at hp
  have := of_decide_eq_true hp.2
  omega

theorem pruneEntry_total (e : Entry) : (pruneEntry e).total_games = e.total_games := rfl

theorem pruneEntry_id (e : Entry) (ha : entryAligned e = true)
    (hall : ∀ f ∈ e.frequencies, max 1 (e.total_games * 15 / 100) ≤ f) :
    pruneEntry e = e := by
  simp only [pruneEntry]
  have hfilter : (List.range e.moves.length).filter
      (fun i => decide (e.frequencies.getD i 0 < max 1 (e.total_games * 15 / 100))) = [] := by
    rw [List.filter_eq_nil]
    intro i hi
    rw [List.mem_range] at hi
    rw [entryAligned_iff] at ha
    have hflen : i < e.frequencies.length := ha ▸ hi
    have hmem : e.frequencies.getD i 0 ∈ e.frequencies := by
      rw [List.getD_eq_getElem _ _ hflen]
      exact List.getElem_mem hflen
    have := hall _ hmem
    simp only [decide_eq_true_eq]
    omega
  rw [hfilter]
  rfl

theorem filterMap_id_of_mem (g : α → Option α) (l : List α)
    (h : ∀ x ∈ l, g x = some x) : l.filterMap g = l := by
  induction l with
  | nil => rfl
  | cons a t ih =>
    rw [List.filterMap_cons, h a (by simp)]
    rw [ih (fun x hx => h x (by simp [hx]))]

theorem dbAligned_filter_weak_moves (min_games : Nat) (db : GameDB)
    (hdb : dbAligned db = true) :
    dbAligned (filter_weak_moves min_games db) = true := by
  rw [dbAligned, List.all_eq_true]
  intro ke hke
  obtain ⟨e, hmem, _, he, _⟩ :=
    filter_weak_moves_mem min_games db ke.1 ke.2 (by exact hke)
  have ha : entryAligned e = true := (List.all_eq_true.mp hdb) (ke.1, e) hmem
  rw [he]
  exact pruneEntry_aligned e ha

/-! ### Helper lemmas: book generation -/

theorem book_foldl_lines (kk : List Char) (w : Bool) (mvs : List (List Char)) :
    ∀ (bk : Book),
    (mvs.foldl (fun b mv =>
        if w = true then { b with white := b.white ++ [kk ++ ' ' :: mv] }
        else { b with black := b.black ++ [kk ++ ' ' :: mv] }) bk)
      = { white := bk.white ++ (if w = true then mvs.map (fun mv => kk ++ ' ' :: mv) else []),
          black := bk.black
            ++ (if w = true then [] else mvs.map (fun mv => kk ++ ' ' :: mv)) } := by
  induction mvs with
  | nil => intro bk; cases w <;> simp
  | cons mv t ih =>
    intro bk
    rw [List.foldl_cons, ih]
    cases w <;> simp

theorem mod2_beq_one (n : Nat) : (n % 2 == 1) = !(n % 2 == 0) := by
  rcases Nat.mod_two_eq_zero_or_one n with h | h <;> simp [h]

theorem whiteLines_cons (ke : List Char × Entry) (rest : GameDB) :
    whiteLines (ke :: rest)
      = (if ((splitChar ' ' ke.1).length % 2 == 0) = true
          then ke.2.moves.map (fun mv => ke.1 ++ ' ' :: mv) else [])
        ++ whiteLines rest := by
  unfold whiteLines
  rw [List.filter_cons]
  by_cases h : ((splitChar ' ' ke.1).length % 2 == 0) = true
  · rw [if_pos h, if_pos h, List.flatMap_cons]
  · rw [if_neg h, if_neg h, List.nil_append]

theorem blackLines_cons (ke : List Char × Entry) (rest : GameDB) :
    blackLines (ke :: rest)
      = (if ((splitChar ' ' ke.1).length % 2 == 0) = true
          then [] else ke.2.moves.map (fun mv => ke.1 ++ ' ' :: mv))
        ++ blackLines rest := by
  unfold blackLines
  rw [List.filter_cons, mod2_beq_one]
  by_cases h : ((splitChar ' ' ke.1).length % 2 == 0) = true
  · simp [h]
  · simp [h, List.flatMap_cons]

theorem generate_foldl_aux (db : GameDB) : ∀ (bk : Book),
    db.foldl (fun book ke =>
      let moves := splitChar ' ' ke.1
      let is_white := moves.length % 2 == 0
      ke.2.moves.foldl (fun bk mv =>
        let opening_line := ke.1 ++ ' ' :: mv
        if is_white then { bk with white := bk.white ++ [opening_line] }
        else { bk with black := bk.black ++ [opening_line] }) book) bk
      = { white := bk.white ++ whiteLines db, black := bk.black ++ blackLines db } := by
  induction db with
  | nil =>
    intro bk
    simp [whiteLines, blackLines]
  | cons ke rest ih =>
    intro bk
    rw [List.foldl_cons]
    simp only []
    rw [book_foldl_lines ke.1 ((splitChar ' ' ke.1).length % 2 == 0) ke.2.moves bk]
    rw [ih]
    rw [whiteLines_cons, blackLines_cons]
    by_cases h : ((splitChar ' ' ke.1).length % 2 == 0) = true
    · simp [h, List.append_assoc]
    · simp [h, List.append_assoc]

theorem generate_opening_book_eq (db : GameDB) :
    (generate_opening_book db).white = whiteLines db
    ∧ (generate_opening_book db).black = blackLines db := by
  have h := generate_foldl_aux db { white := [], black := [] }
  unfold generate_opening_book
  rw [h]
  exact ⟨rfl, rfl⟩

/-! ### Helper lemmas: move-text line selection -/

theorem findMoveText_first (ls : List (List Char)) :
    (findMoveText ls = [] ∧ ∀ l ∈ ls, move_line_ok (pyStrip l) = false)
    ∨ (∃ pre l post, ls = pre ++ l :: post
        ∧ (∀ x ∈ pre, move_line_ok (pyStrip x) = false)
        ∧ move_line_ok (pyStrip l) = true
        ∧ findMoveText ls = pyStrip l) := by
  induction ls with
  | nil => exact Or.inl ⟨rfl, by simp⟩
  | cons a t ih =>
    by_cases h : move_line_ok (pyStrip a) = true
    · refine Or.inr ⟨[], a, t, rfl, by simp, h, ?_⟩
      simp [findMoveText, h]
    · have hstep : findMoveText (a :: t) = findMoveText t := by
        simp [findMoveText, h]
      have hfa : move_line_ok (pyStrip a) = false := by
        cases hb : move_line_ok (pyStrip a)
        · rfl
        · exact absurd hb h
      rcases ih with ⟨h1, h2⟩ | ⟨pre, l, post, heq, hpre, hl, hres⟩
      · refine Or.inl ⟨hstep.trans h1, ?_⟩
        intro x hx
        rcases List.mem_cons.mp hx with hx | hx
        · rw [hx]; exact hfa
        · exact h2 x hx
      · refine Or.inr ⟨a :: pre, l, post, by rw [heq]; rfl, ?_, hl, hstep.trans hres⟩
        intro x hx
        rcases List.mem_cons.mp hx with hx | hx
        · rw [hx]; exact hfa
        · exact hpre x hx

/-! ### Helper lemmas: the depth cap -/

theorem processStep_take (g : List (List Char)) (db : GameDB) (i : Nat)
    (h1 : i + 1 ≤ 15) : processStep (g.take 16) db i = processStep g db i := by
  unfold processStep
  have htake : (g.take 16).take (i + 1) = g.take (i + 1) := by
    rw [List.take_take]
    congr 1
    omega
  have hlt : (i + 1 < (g.take 16).length) ↔ (i + 1 < g.length) := by
    rw [List.length_take]
    omega
  have hgetD : (g.take 16).getD (i + 1) [] = g.getD (i + 1) [] := by
    rw [List.getD_eq_getD_get?, List.getD_eq_getD_get?, List.get?_take (by omega)]
  rw [htake]
  by_cases h2 : i + 1 < g.length
  · rw [if_pos (hlt.mpr h2), if_pos h2, hgetD]
  · rw [if_neg (fun hc => h2 (hlt.mp hc)), if_neg h2]

theorem foldl_congr_steps (f f' : GameDB → Nat → GameDB) (is : List Nat)
    (h : ∀ db i, i ∈ is → f db i = f' db i) :
    ∀ db : GameDB, is.foldl f db = is.foldl f' db := by
  induction is with
  | nil => intro db; rfl
  | cons i t ih =>
    intro db
    rw [List.foldl_cons, List.foldl_cons, h db i (by simp)]
    exact ih (fun db j hj => h db j (by simp [hj])) _

/-! ### Helper lemmas: the per-file fold of process_pgn_file -/

theorem record_step_min_games (acc : LichessOpeningBookBuilder) (ig : Nat × List Char) :
    (record_step acc ig).min_games = acc.min_games := by
  simp only [record_step]
  by_cases h : (extract_moves_from_game
      (if ig.1 > 0 then chars "[Event" ++ ig.2 else ig.2)).isEmpty = true
  · rw [if_pos h]
  · rw [if_neg h]

theorem record_step_max_depth (acc : LichessOpeningBookBuilder) (ig : Nat × List Char) :
    (record_step acc ig).max_depth = acc.max_depth := by
  simp only [record_step]
  by_cases h : (extract_moves_from_game
      (if ig.1 > 0 then chars "[Event" ++ ig.2 else ig.2)).isEmpty = true
  · rw [if_pos h]
  · rw [if_neg h]

theorem record_step_max_games (acc : LichessOpeningBookBuilder) (ig : Nat × List Char) :
    (record_step acc ig).max_games = acc.max_games := by
  simp only [record_step]
  by_cases h : (extract_moves_from_game
      (if ig.1 > 0 then chars "[Event" ++ ig.2 else ig.2)).isEmpty = true
  · rw [if_pos h]
  · rw [if_neg h]

theorem record_step_gd_congr (acc acc' : LichessOpeningBookBuilder) (ig : Nat × List Char)
    (hgd : acc.game_database = acc'.game_database) (hdep : acc.max_depth = acc'.max_depth) :
    (record_step acc ig).game_database = (record_step acc' ig).game_database := by
  simp only [record_step]
  by_cases h : (extract_moves_from_game
      (if ig.1 > 0 then chars "[Event" ++ ig.2 else ig.2)).isEmpty = true
  · rw [if_pos h, if_pos h]
    exact hgd
  · rw [if_neg h, if_neg h]
    simp only []
    rw [hgd, hdep]

theorem pgn_fold_min_games (l : List (Nat × List Char)) :
    ∀ acc : LichessOpeningBookBuilder,
    (l.foldl record_step acc).min_games = acc.min_games := by
  induction l with
  | nil => intro acc; rfl
  | cons ig t ih =>
    intro acc
    rw [List.foldl_cons, ih, record_step_min_games]

theorem pgn_fold_max_depth (l : List (Nat × List Char)) :
    ∀ acc : LichessOpeningBookBuilder,
    (l.foldl record_step acc).max_depth = acc.max_depth := by
  induction l with
  | nil => intro acc; rfl
  | cons ig t ih =>
    intro acc
    rw [List.foldl_cons, ih, record_step_max_depth]

theorem pgn_fold_gd (l : List (Nat × List Char)) :
    ∀ (acc acc' : LichessOpeningBookBuilder),
    acc.game_database = acc'.game_database → acc.max_depth = acc'.max_depth →
    (l.foldl record_step acc).game_database
      = (l.foldl record_step acc').game_database := by
  induction l with
  | nil => intro acc acc' hgd _; exact hgd
  | cons ig t ih =>
    intro acc acc' hgd hdep
    rw [List.foldl_cons, List.foldl_cons]
    exact ih _ _ (record_step_gd_congr acc acc' ig hgd hdep)
      (by rw [record_step_max_depth, record_step_max_depth, hdep])

theorem process_pgn_file_book_congr (b b' : LichessOpeningBookBuilder) (c : List Char)
    (hgd : b.game_database = b'.game_database) (hmin : b.min_games = b'.min_games)
    (hdep : b.max_depth = b'.max_depth) (hmax : b.max_games = b'.max_games) :
    (process_pgn_file b c).2 = (process_pgn_file b' c).2 := by
  unfold process_pgn_file
  simp only []
  rw [hmax]
  rw [pgn_fold_gd (((splitOnSub (chars "\n\n[Event") c).take b'.max_games).enum)
    b b' hgd hdep]
  rw [pgn_fold_min_games, pgn_fold_min_games, hmin]

/-! ### Claim theorems -/

/-- Claim C9: a game whose move list has fewer than 4 moves leaves the
mapping completely unchanged: no key is created and no total_games or
continuation count of any existing key is modified. -/
theorem claim_C9_short_game (max_depth : Nat) (db : GameDB) (g : List (List Char))
    (h : g.length < 4) : process_game max_depth db g = db := by
  unfold process_game
  rw [if_pos h]

/-- Witness for claim C9 at a three-move game over a non-empty mapping. -/
theorem claim_C9_short_game_witness :
    ([chars "e4", chars "e5", chars "Nf3"].length < 4)
    ∧ process_game 15 [(chars "e4", { moves := [chars "e5"], frequencies := [1], total_games := 1 })] [chars "e4", chars "e5", chars "Nf3"]
      = [(chars "e4", { moves := [chars "e5"], frequencies := [1], total_games := 1 })] :=
  ⟨by decide, claim_C9_short_game 15 _ _ (by decide)⟩

/-- Claim C3: after one call to filter_weak_moves on an index-aligned
mapping, every remaining key has total_games at least min_games, its
continuation list is non-empty and stays aligned with its frequency list,
and every remaining continuation count is at least
max(1, floor(total_games * 0.15)). -/
theorem claim_C3_filter_sound (min_games : Nat) (db : GameDB) (k : List Char)
    (e : Entry) (hdb : dbAligned db = true)
    (hmem : (k, e) ∈ filter_weak_moves min_games db) :
    min_games ≤ e.total_games
    ∧ e.moves ≠ []
    ∧ e.moves.length = e.frequencies.length
    ∧ ∀ f ∈ e.frequencies, max 1 (e.total_games * 15 / 100) ≤ f := by
  obtain ⟨e0, hmem0, htot, heq, hne⟩ := filter_weak_moves_mem min_games db k e hmem
  have ha0 : entryAligned e0 = true := (List.all_eq_true.mp hdb) (k, e0) hmem0
  subst heq
  refine ⟨?_, ?_, ?_, ?_⟩
  · rw [pruneEntry_total]
    exact htot
  · intro hc
    exact hne (List.isEmpty_iff.mpr hc)
  · rw [← entryAligned_iff]
    exact pruneEntry_aligned e0 ha0
  · intro f hf
    rw [pruneEntry_total]
    exact pruneEntry_freq_ge e0 ha0 f hf

/-- Witness for claim C3 at a one-key mapping that survives the filter. -/
theorem claim_C3_filter_sound_witness :
    (dbAligned [(chars "e4", { moves := [chars "e5"], frequencies := [3], total_games := 3 })] = true)
    ∧ ((chars "e4", { moves := [chars "e5"], frequencies := [3], total_games := 3 }) ∈ filter_weak_moves 3 [(chars "e4", { moves := [chars "e5"], frequencies := [3], total_games := 3 })])
    ∧ (3 ≤ ({ moves := [chars "e5"], frequencies := [3], total_games := 3 } : Entry).total_games
        ∧ ({ moves := [chars "e5"], frequencies := [3], total_games := 3 } : Entry).moves ≠ []
        ∧ ({ moves := [chars "e5"], frequencies := [3], total_games := 3 } : Entry).moves.length = ({ moves := [chars "e5"], frequencies := [3], total_games := 3 } : Entry).frequencies.length
        ∧ ∀ f ∈ ({ moves := [chars "e5"], frequencies := [3], total_games := 3 } : Entry).frequencies, max 1 (({ moves := [chars "e5"], frequencies := [3], total_games := 3 } : Entry).total_games * 15 / 100) ≤ f) :=
  ⟨by decide, by decide,
    claim_C3_filter_sound 3 [(chars "e4", { moves := [chars "e5"], frequencies := [3], total_games := 3 })] (chars "e4") { moves := [chars "e5"], frequencies := [3], total_games := 3 } (by decide) (by decide)⟩

/-- Claim C10: filter_weak_moves is idempotent on index-aligned mappings: a
second application removes nothing and returns the filtered mapping
unchanged. -/
theorem claim_C10_filter_idempotent (min_games : Nat) (db : GameDB)
    (hdb : dbAligned db = true) :
    filter_weak_moves min_games (filter_weak_moves min_games db)
      = filter_weak_moves min_games db := by
  have hfix : ∀ ke ∈ filter_weak_moves min_games db,
      (fun ke : List Char × Entry =>
        if ke.2.total_games < min_games then none
        else
          let e' := pruneEntry ke.2
          if e'.moves.isEmpty then none else some (ke.1, e')) ke = some ke := by
    intro ke hke
    obtain ⟨e0, hmem0, htot, heq, hne⟩ :=
      filter_weak_moves_mem min_games db ke.1 ke.2 hke
    have ha0 : entryAligned e0 = true := (List.all_eq_true.mp hdb) (ke.1, e0) hmem0
    have hid : pruneEntry ke.2 = ke.2 := by
      rw [heq]
      refine pruneEntry_id (pruneEntry e0) (pruneEntry_aligned e0 ha0) ?_
      intro f hf
      rw [pruneEntry_total]
      exact pruneEntry_freq_ge e0 ha0 f hf
    have hemp : ke.2.moves.isEmpty = false := by
      rw [heq]
      cases hb : (pruneEntry e0).moves.isEmpty
      · rfl
      · exact absurd hb hne
    simp only []
    rw [if_neg (by rw [heq, pruneEntry_total]; omega), hid, hemp]
    simp
  exact filterMap_id_of_mem _ _ hfix

/-- Witness for claim C10 at a one-key mapping. -/
theorem claim_C10_filter_idempotent_witness :
    (dbAligned [(chars "e4", { moves := [chars "e5", chars "c5"], frequencies := [3, 1], total_games := 4 })] = true)
    ∧ filter_weak_moves 3 (filter_weak_moves 3 [(chars "e4", { moves := [chars "e5", chars "c5"], frequencies := [3, 1], total_games := 4 })])
      = filter_weak_moves 3 [(chars "e4", { moves := [chars "e5", chars "c5"], frequencies := [3, 1], total_games := 4 })] :=
  ⟨by decide, claim_C10_filter_idempotent 3 _ (by decide)⟩

/-- Claim C6: folding a fixed multiset of games into an empty mapping via
process_game yields the same total_games for every key and the same count
for every (key, continuation) pair regardless of the processing order. -/
theorem claim_C6_order_invariant (max_depth : Nat) (l1 l2 : List (List (List Char)))
    (h : l1.Perm l2) (k m : List Char) :
    keyTotal (l1.foldl (process_game max_depth) []) k
        = keyTotal (l2.foldl (process_game max_depth) []) k
    ∧ contCount (l1.foldl (process_game max_depth) []) k m
        = contCount (l2.foldl (process_game max_depth) []) k m := by
  constructor
  · rw [keyTotal_fold_games, keyTotal_fold_games,
      (h.map (fun g => gameKeyInc max_depth g k)).sum_eq]
  · rw [contCount_fold_games max_depth l1 [] k m rfl,
      contCount_fold_games max_depth l2 [] k m rfl,
      (h.map (fun g => gameContInc max_depth g k m)).sum_eq]

/-- Witness for claim C6 at two games folded in both orders. -/
theorem claim_C6_order_invariant_witness :
    (([["e4", "e5", "Nf3", "Nc6"].map chars, ["d4", "d5", "c4", "e6"].map chars] : List (List (List Char))).Perm [["d4", "d5", "c4", "e6"].map chars, ["e4", "e5", "Nf3", "Nc6"].map chars])
    ∧ keyTotal ([["e4", "e5", "Nf3", "Nc6"].map chars, ["d4", "d5", "c4", "e6"].map chars].foldl (process_game 15) []) (chars "e4")
        = keyTotal ([["d4", "d5", "c4", "e6"].map chars, ["e4", "e5", "Nf3", "Nc6"].map chars].foldl (process_game 15) []) (chars "e4")
    ∧ contCount ([["e4", "e5", "Nf3", "Nc6"].map chars, ["d4", "d5", "c4", "e6"].map chars].foldl (process_game 15) []) (chars "e4") (chars "e5")
        = contCount ([["d4", "d5", "c4", "e6"].map chars, ["e4", "e5", "Nf3", "Nc6"].map chars].foldl (process_game 15) []) (chars "e4") (chars "e5") :=
  ⟨List.Perm.swap _ _ _,
    (claim_C6_order_invariant 15 _ _ (List.Perm.swap _ _ _) (chars "e4") (chars "e5")).1,
    (claim_C6_order_invariant 15 _ _ (List.Perm.swap _ _ _) (chars "e4") (chars "e5")).2⟩

/-- Claim C7: the book merge is a pure set union by exact line equality: a
line is in a merged bucket iff it is in that bucket of either input, merged
buckets hold no duplicates, and merging a book with itself preserves its
line sets. -/
theorem claim_C7_merge_union (a b : Book) :
    (∀ l, l ∈ (merge_books a b).white ↔ (l ∈ a.white ∨ l ∈ b.white))
    ∧ (∀ l, l ∈ (merge_books a b).black ↔ (l ∈ a.black ∨ l ∈ b.black))
    ∧ (merge_books a b).white.Nodup
    ∧ (merge_books a b).black.Nodup
    ∧ (∀ l, l ∈ (merge_books a a).white ↔ l ∈ a.white)
    ∧ (∀ l, l ∈ (merge_books a a).black ↔ l ∈ a.black) := by
  refine ⟨?_, ?_, ?_, ?_, ?_, ?_⟩ <;>
    simp [merge_books, List.mem_dedup, List.mem_append, List.nodup_dedup]

/-- Claim C5: extraction is total and only well-shaped tokens are stored:
every token returned by extract_moves_from_game has length at least 2 and
matches the canonical move pattern after check markers are stripped. -/
theorem claim_C5_extract_safe (game_text : List Char) (m : List Char)
    (h : m ∈ extract_moves_from_game game_text) :
    2 ≤ m.length ∧ is_valid_move m = true := by
  unfold extract_moves_from_game at h
  rw [List.mem_filterMap] at h
  obtain ⟨raw, hraw, hsome⟩ := h
  simp only [] at hsome
  by_cases hc : (2 ≤ (stripCheck raw).length && is_valid_move (stripCheck raw)) = true
  · rw [if_pos hc] at hsome
    have hm : stripCheck raw = m := Option.some.inj hsome
    rw [Bool.and_eq_true] at hc
    obtain ⟨h1, h2⟩ := hc
    rw [← hm]
    exact ⟨of_decide_eq_true h1, h2⟩
  · rw [if_neg hc] at hsome
    exact absurd hsome (by simp)

/-- Witness for claim C5 at a complete game record. -/
theorem claim_C5_extract_safe_witness :
    (chars "e4" ∈ extract_moves_from_game (chars "[Event a]\n1. e4 e5 2. Nf3 Nc6"))
    ∧ (2 ≤ (chars "e4").length ∧ is_valid_move (chars "e4") = true) :=
  ⟨by decide, claim_C5_extract_safe (chars "[Event a]\n1. e4 e5 2. Nf3 Nc6") (chars "e4") (by decide)⟩

/-- Claim C2 counterexample: with max_depth 15, a 16-move game is not
processed like its first 15 moves alone: the 16th move (index 15) is
recorded as a continuation of the depth-15 key. -/
theorem claim_C2_counterexample :
    (process_game 15 [] (["a1", "a2", "a3", "a4", "a5", "a6", "a7", "a8", "b1", "b2", "b3", "b4", "b5", "b6", "b7", "b8"].map chars)
      ≠ process_game 15 [] ((["a1", "a2", "a3", "a4", "a5", "a6", "a7", "a8", "b1", "b2", "b3", "b4", "b5", "b6", "b7", "b8"].map chars).take 15))
    ∧ (lookupKey (process_game 15 [] (["a1", "a2", "a3", "a4", "a5", "a6", "a7", "a8", "b1", "b2", "b3", "b4", "b5", "b6", "b7", "b8"].map chars)) (joinSpace ((["a1", "a2", "a3", "a4", "a5", "a6", "a7", "a8", "b1", "b2", "b3", "b4", "b5", "b6", "b7", "b8"].map chars).take 15))).map Entry.moves
      = some [chars "b8"] := by
  refine ⟨by decide, by decide⟩

/-- Claim C2 (amended): with max_depth 15, process_game depends only on the
first 16 moves of a game: moves at index 16 or beyond never create or update
any entry, while the move at index 15 is recorded as a continuation of the
depth-15 key when the game is that long. -/
theorem claim_C2_depth_cap (db : GameDB) (g : List (List Char)) :
    process_game 15 db g = process_game 15 db (g.take 16) := by
  by_cases h16 : g.length ≤ 16
  · rw [List.take_of_length_le h16]
  · unfold process_game
    have hlen : (g.take 16).length = 16 := by
      rw [List.length_take]
      omega
    have hg4 : ¬ g.length < 4 := by omega
    have hg4' : ¬ (g.take 16).length < 4 := by omega
    rw [if_neg hg4, if_neg hg4']
    have hmin : min (g.take 16).length 15 = min g.length 15 := by
      rw [hlen]
      omega
    rw [hmin]
    refine foldl_congr_steps (processStep g) (processStep (g.take 16))
      (List.range (min g.length 15)) ?_ db
    intro db' i hi
    rw [List.mem_range] at hi
    exact (processStep_take g db' i (by omega)).symm

/-- Claim C8 counterexample: a non-empty line that begins with a result
marker but contains further text is skipped by the code's startswith test,
while the spec's bare-marker rule would select it. -/
theorem claim_C8_counterexample :
    moveTextOf (chars "1-0 1. e4 e5 2. Nf3 Nc6") = []
    ∧ findMoveTextSpec ((splitChar '\n' (pyStrip (chars "1-0 1. e4 e5 2. Nf3 Nc6"))).reverse) = chars "1-0 1. e4 e5 2. Nf3 Nc6"
    ∧ move_line_ok_spec (chars "1-0 1. e4 e5 2. Nf3 Nc6") = true
    ∧ move_line_ok (chars "1-0 1. e4 e5 2. Nf3 Nc6") = false := by
  refine ⟨by decide, by decide, by decide, by decide⟩

/-- Claim C8 (amended): the chosen move-text line is the first line from the
end whose stripped form is non-empty, does not start with the tag-opening
character, and does not start with a result marker (1-0, 0-1, 1/2-1/2);
lines merely beginning with a marker are skipped even when text follows.
When no line qualifies the selection is empty. -/
theorem claim_C8_line_selection (game_text : List Char) :
    (moveTextOf game_text = []
      ∧ ∀ l ∈ splitChar '\n' (pyStrip game_text), move_line_ok (pyStrip l) = false)
    ∨ (∃ pre l post,
        (splitChar '\n' (pyStrip game_text)).reverse = pre ++ l :: post
        ∧ (∀ x ∈ pre, move_line_ok (pyStrip x) = false)
        ∧ move_line_ok (pyStrip l) = true
        ∧ moveTextOf game_text = pyStrip l) := by
  rcases findMoveText_first ((splitChar '\n' (pyStrip game_text)).reverse) with ⟨h1, h2⟩ | hr
  · refine Or.inl ⟨h1, ?_⟩
    intro l hl
    exact h2 l (List.mem_reverse.mpr hl)
  · exact Or.inr hr

/-- Witness for claim C8 (amended): the disjunction at a record whose last
line is move text. -/
theorem claim_C8_line_selection_witness :
    (moveTextOf (chars "[Event a]\n1. e4 e5 2. Nf3 Nc6") = []
      ∧ ∀ l ∈ splitChar '\n' (pyStrip (chars "[Event a]\n1. e4 e5 2. Nf3 Nc6")), move_line_ok (pyStrip l) = false)
    ∨ (∃ pre l post,
        (splitChar '\n' (pyStrip (chars "[Event a]\n1. e4 e5 2. Nf3 Nc6"))).reverse = pre ++ l :: post
        ∧ (∀ x ∈ pre, move_line_ok (pyStrip x) = false)
        ∧ move_line_ok (pyStrip l) = true
        ∧ moveTextOf (chars "[Event a]\n1. e4 e5 2. Nf3 Nc6") = pyStrip l) :=
  claim_C8_line_selection (chars "[Event a]\n1. e4 e5 2. Nf3 Nc6")

/-- Claim C4: generate_opening_book routes every continuation line of a key
into exactly one bucket determined by the parity of the key's token count —
white when even, black when odd — and in particular every continuation of
key "e4" lands in black and every continuation of key "e4 e5" lands in
white. -/
theorem claim_C4_side_buckets (db : GameDB) :
    (generate_opening_book db).white = whiteLines db
    ∧ (generate_opening_book db).black = blackLines db
    ∧ (∀ e mv, (chars "e4", e) ∈ db → mv ∈ e.moves →
        (chars "e4" ++ ' ' :: mv) ∈ (generate_opening_book db).black)
    ∧ (∀ e mv, (chars "e4 e5", e) ∈ db → mv ∈ e.moves →
        (chars "e4 e5" ++ ' ' :: mv) ∈ (generate_opening_book db).white) := by
  obtain ⟨hw, hb⟩ := generate_opening_book_eq db
  refine ⟨hw, hb, ?_, ?_⟩
  · intro e mv hmem hmv
    rw [hb]
    unfold blackLines
    rw [List.mem_flatMap]
    refine ⟨(chars "e4", e), ?_, ?_⟩
    · rw [List.mem_filter]
      exact ⟨hmem, (by decide : ((splitChar ' ' (chars "e4")).length % 2 == 1) = true)⟩
    · rw [List.mem_map]
      exact ⟨mv, hmv, rfl⟩
  · intro e mv hmem hmv
    rw [hw]
    unfold whiteLines
    rw [List.mem_flatMap]
    refine ⟨(chars "e4 e5", e), ?_, ?_⟩
    · rw [List.mem_filter]
      exact ⟨hmem, (by decide : ((splitChar ' ' (chars "e4 e5")).length % 2 == 0) = true)⟩
    · rw [List.mem_map]
      exact ⟨mv, hmv, rfl⟩

/-- Witness for claim C4 at a two-key mapping holding "e4" and "e4 e5". -/
theorem claim_C4_side_buckets_witness :
    ((chars "e4", ({ moves := [chars "e5"], frequencies := [3], total_games := 3 } : Entry)) ∈ [(chars "e4", ({ moves := [chars "e5"], frequencies := [3], total_games := 3 } : Entry)), (chars "e4 e5", ({ moves := [chars "Nf3"], frequencies := [3], total_games := 3 } : Entry))])
    ∧ (chars "e5" ∈ ({ moves := [chars "e5"], frequencies := [3], total_games := 3 } : Entry).moves)
    ∧ (chars "e4" ++ ' ' :: chars "e5")
        ∈ (generate_opening_book [(chars "e4", ({ moves := [chars "e5"], frequencies := [3], total_games := 3 } : Entry)), (chars "e4 e5", ({ moves := [chars "Nf3"], frequencies := [3], total_games := 3 } : Entry))]).black :=
  ⟨by decide, by decide,
    (claim_C4_side_buckets [(chars "e4", ({ moves := [chars "e5"], frequencies := [3], total_games := 3 } : Entry)), (chars "e4 e5", ({ moves := [chars "Nf3"], frequencies := [3], total_games := 3 } : Entry))]).2.2.1
      { moves := [chars "e5"], frequencies := [3], total_games := 3 } (chars "e5") (by decide) (by decide)⟩

theorem pgn_fold_max_games (l : List (Nat × List Char)) :
    ∀ acc : LichessOpeningBookBuilder,
    (l.foldl record_step acc).max_games = acc.max_games := by
  induction l with
  | nil => intro acc; rfl
  | cons ig t ih =>
    intro acc
    rw [List.foldl_cons, ih, record_step_max_games]

theorem process_pgn_file_params (b : LichessOpeningBookBuilder) (c : List Char) :
    ((process_pgn_file b c).1.min_games = b.min_games)
    ∧ ((process_pgn_file b c).1.max_depth = b.max_depth)
    ∧ ((process_pgn_file b c).1.max_games = b.max_games) := by
  unfold process_pgn_file
  simp only []
  exact ⟨pgn_fold_min_games _ _, pgn_fold_max_depth _ _, pgn_fold_max_games _ _⟩

/-- Claim C1 counterexample: the builder's mapping persists across corpus
files in main, so the book produced for the second file differs from the
book produced by processing that file alone from a fresh builder: three
copies of a short game in the first corpus push the lone copy in the second
corpus over the min_games threshold. -/
theorem claim_C1_counterexample :
    (main_books (chars "[Event a]\n1. e4 e5 2. Nf3 Nc6\n\n[Event a]\n1. e4 e5 2. Nf3 Nc6\n\n[Event a]\n1. e4 e5 2. Nf3 Nc6") (chars "[Event a]\n1. e4 e5 2. Nf3 Nc6")).2.1
      ≠ (process_pgn_file { initial_builder with max_games := 100000 } (chars "[Event a]\n1. e4 e5 2. Nf3 Nc6")).2 := by
  decide

/-- Claim C1 (amended): process_pgn_file reuses the builder's persistent
mapping, so the second file is aggregated on top of the first file's
filtered mapping; the book for the second file equals the book from
processing it alone exactly as far as that carried-over state is empty: when
the first file's filtered mapping is empty, the two books coincide. -/
theorem claim_C1_second_file (c1 c2 : List Char)
    (h : (process_pgn_file { initial_builder with max_games := 100000 } c1).1.game_database = []) :
    (process_pgn_file (process_pgn_file { initial_builder with max_games := 100000 } c1).1 c2).2
      = (process_pgn_file { initial_builder with max_games := 100000 } c2).2 := by
  obtain ⟨h1, h2, h3⟩ :=
    process_pgn_file_params { initial_builder with max_games := 100000 } c1
  exact process_pgn_file_book_congr _ _ c2 h h1 h2 h3

/-- Witness for claim C1 (amended): an empty first corpus leaves an empty
mapping, and then the second file's book equals the fresh one. -/
theorem claim_C1_second_file_witness :
    ((process_pgn_file { initial_builder with max_games := 100000 } (chars "")).1.game_database = [])
    ∧ (process_pgn_file (process_pgn_file { initial_builder with max_games := 100000 } (chars "")).1 (chars "[Event a]\n1. e4 e5 2. Nf3 Nc6")).2
      = (process_pgn_file { initial_builder with max_games := 100000 } (chars "[Event a]\n1. e4 e5 2. Nf3 Nc6")).2 :=
  ⟨by decide, claim_C1_second_file (chars "") (chars "[Event a]\n1. e4 e5 2. Nf3 Nc6") (by decide)⟩
